import Mathlib

/-!
Shallow embedding of the obligation-netting engine (src/main.go).

Conventions used throughout:
* Go `uint64` values are embedded as `Nat` with explicit reduction modulo
  `U64 = 2^64` wherever the Go code performs arithmetic (the `+=` in
  `AddEdge`, the `-=` in `ApplyNetting`); values entering the graph are
  reduced once at the boundary, mirroring the `uint64` type coercion.
* Go's `map[string]...` containers are embedded as association lists in
  insertion order.  Go's map iteration order is unspecified; every place the
  source ranges over a map (`FindSCCs` roots, the per-cycle token set,
  `ToIntents`) is embedded as iteration in first-insertion order, one fixed
  representative of the unspecified order.
* The recursive `strongConnect` of Tarjan's algorithm is embedded with an
  explicit fuel parameter and an `Option` result; `findSCCs` supplies fuel
  exceeding the vertex count, so `none` never arises on the inputs used here.
  The `int(math.Min(float64 a, float64 b))` detour in the source is exact for
  the vertex indices involved (far below 2^53) and is embedded as `Nat.min`.
* The bounded cycle search of `FindCycles` recurses with `depth+1` and stops
  at `depth > maxLength`; it is embedded with fuel `maxLength + 1 - depth`,
  which reaches 0 exactly when the source's depth guard fires.  The source's
  `visited` map and `path` slice are restored by backtracking before each
  top-level root call, so each root starts from the empty set/path.
-/

set_option maxRecDepth 100000

/-- 2^64, the modulus of Go's `uint64` arithmetic. -/
def U64 : Nat := 18446744073709551616

/-- Wrapping `uint64` subtraction: Go's `a -= b` on unsigned 64-bit values. -/
def usub (a b : Nat) : Nat := (a + (U64 - b % U64)) % U64

/-- `Intent` from src/main.go: one directed obligation. -/
structure Intent where
  sender : String
  receiver : String
  token : String
  amount : Nat
deriving DecidableEq, Repr

/-- `Edge` from src/main.go: a directed edge owned by its source party. -/
structure Edge where
  dst : String
  token : String
  amount : Nat
deriving DecidableEq, Repr

/-- `Graph` from src/main.go: `map[from][]Edge`, embedded as an association
list in key-insertion order. -/
abbrev Graph : Type := List (String × List Edge)

/-- Edge list of a vertex: `g.Edges[v]`, the empty list when `v` is absent. -/
def edgesOf (g : Graph) (v : String) : List Edge :=
  (List.lookup v g).getD []

/-- The scan-and-merge loop of `AddEdge`: find the first edge matching
`(to, token)` and add to its amount (mod 2^64); `none` when no edge matches. -/
def mergeEdge (es : List Edge) (dst tok : String) (a : Nat) : Option (List Edge) :=
  match es with
  | [] => none
  | e :: rest =>
      if e.dst = dst ∧ e.token = tok then
        some ({ e with amount := (e.amount + a) % U64 } :: rest)
      else
        (mergeEdge rest dst tok a).map (fun es' => e :: es')

/-- `Graph.AddEdge` from src/main.go: merge into an existing `(to, token)`
edge of `src`, else append a new edge (creating `src`'s entry if absent). -/
def addEdge (g : Graph) (src dst tok : String) (a : Nat) : Graph :=
  match g with
  | [] => [(src, [⟨dst, tok, a % U64⟩])]
  | (k, es) :: rest =>
      if k = src then
        match mergeEdge es dst tok a with
        | some es' => (k, es') :: rest
        | none => (k, es ++ [⟨dst, tok, a % U64⟩]) :: rest
      else
        (k, es) :: addEdge rest src dst tok a

/-- Graph construction loop of `ProcessNetting`: insert every intent. -/
def buildGraph (intents : List Intent) : Graph :=
  intents.foldl (fun g i => addEdge g i.sender i.receiver i.token i.amount) []

/-- Mutable state of Tarjan's algorithm in `FindSCCs`.  The `indices` and
`lowlinks` maps are embedded as association lists where an update shadows by
consing in front, so `List.lookup` returns the latest value. -/
structure TarjanSt where
  idx : Nat
  stack : List String
  onStack : List String
  indices : List (String × Nat)
  lowlinks : List (String × Nat)
  sccs : List (List String)
deriving Repr

/-- The pop loop of `strongConnect`: pop the stack (head = top) down to and
including `v`, returning the popped vertices in pop order and the rest.
The source's loop never runs on a stack not containing `v`. -/
def popUntil (stack : List String) (v : String) : List String × List String :=
  match stack with
  | [] => ([], [])
  | w :: rest =>
      if w = v then ([w], rest)
      else
        let p := popUntil rest v
        (w :: p.1, p.2)

/-- Successor loop of `strongConnect`: recurse (through `recur`, the
fuel-decremented `strongConnect`) into unvisited successors and update
`lowlink[v]` with `min` as in the source. -/
def succLoop (recur : String → TarjanSt → Option TarjanSt) (v : String) :
    List Edge → TarjanSt → Option TarjanSt
  | [], st => some st
  | e :: rest, st =>
      let w := e.dst
      match List.lookup w st.indices with
      | none =>
          match recur w st with
          | none => none
          | some st' =>
              let lv := (List.lookup v st'.lowlinks).getD 0
              let lw := (List.lookup w st'.lowlinks).getD 0
              succLoop recur v rest
                { st' with lowlinks := (v, Nat.min lv lw) :: st'.lowlinks }
      | some iw =>
          if w ∈ st.onStack then
            let lv := (List.lookup v st.lowlinks).getD 0
            succLoop recur v rest
              { st with lowlinks := (v, Nat.min lv iw) :: st.lowlinks }
          else
            succLoop recur v rest st

/-- `strongConnect` from `Graph.FindSCCs`: assign index/lowlink, visit
successors, and pop an SCC when `v` is a root.  Runs out of fuel to `none`;
`findSCCs` supplies sufficient fuel. -/
def strongConnect (g : Graph) : Nat → String → TarjanSt → Option TarjanSt
  | 0, _, _ => none
  | fuel + 1, v, st =>
      let st1 : TarjanSt :=
        { st with
            indices := (v, st.idx) :: st.indices
            lowlinks := (v, st.idx) :: st.lowlinks
            idx := st.idx + 1
            stack := v :: st.stack
            onStack := v :: st.onStack }
      match succLoop (fun w st' => strongConnect g fuel w st') v
          (edgesOf g v) st1 with
      | none => none
      | some st2 =>
          let lv := (List.lookup v st2.lowlinks).getD 0
          let iv := (List.lookup v st2.indices).getD 0
          if lv = iv then
            let p := popUntil st2.stack v
            let st3 : TarjanSt :=
              { st2 with
                  stack := p.2
                  onStack := st2.onStack.filter (fun w => decide (¬ w ∈ p.1)) }
            if p.1.length > 1 then
              some { st3 with sccs := st3.sccs ++ [p.1] }
            else
              some st3
          else
            some st2

/-- Root loop of `FindSCCs`: run `strongConnect` from every not-yet-indexed
map key. -/
def sccLoop (g : Graph) (fuel : Nat) :
    List String → TarjanSt → Option TarjanSt
  | [], st => some st
  | v :: rest, st =>
      match List.lookup v st.indices with
      | some _ => sccLoop g fuel rest st
      | none =>
          match strongConnect g fuel v st with
          | none => none
          | some st' => sccLoop g fuel rest st'

/-- `Graph.FindSCCs` from src/main.go: Tarjan's algorithm over the map keys,
keeping only SCCs of size > 1, in discovery order.  Fuel exceeds the number
of vertices (keys plus edge targets), so recursion never exhausts it. -/
def findSCCs (g : Graph) : Option (List (List String)) :=
  let fuel := g.length + (g.flatMap (fun p => p.2)).length + 1
  let st0 : TarjanSt := ⟨0, [], [], [], [], []⟩
  (sccLoop g fuel (g.map (fun p => p.1)) st0).map (fun st => st.sccs)

/-- Successor multiset of a vertex, one entry per edge (a neighbour reached by
edges in two tokens appears twice), exactly as `range g.Edges[current]`
enumerates targets in `findCyclesRecursive`. -/
def succsOf (g : Graph) (v : String) : List String :=
  (edgesOf g v).map (fun e => e.dst)

/-- Edge loop of `findCyclesRecursive`: recurse (through `recur`, the
fuel-decremented `cyclesGo`) into targets that are unvisited or equal to
`start`, concatenating discovered cycles in order. -/
def cyclesGoEdges (recur : String → List (List String)) (start : String)
    (visited : List String) : List String → List (List String)
  | [] => []
  | w :: rest =>
      (if ¬ w ∈ visited ∨ w = start then recur w else []) ++
      cyclesGoEdges recur start visited rest

/-- `findCyclesRecursive` from `Graph.FindCycles`.  `fuel = maxLen + 1 - depth`
so `fuel = 0` exactly when the source's `depth > maxLength` guard returns. -/
def cyclesGo (succs : String → List String) (start : String) :
    Nat → Nat → String → List String → List String → List (List String)
  | 0, _, _, _, _ => []
  | fuel + 1, depth, current, visited, path =>
      if 0 < depth ∧ current = start then [path]
      else
        cyclesGoEdges
          (fun w => cyclesGo succs start fuel (depth + 1) w
            (current :: visited) (path ++ [current]))
          start (current :: visited) (succs current)

/-- `Graph.FindCycles` from src/main.go: depth-bounded DFS from every vertex
of the SCC.  The source's `visited`/`path` are restored by backtracking
between roots, so each root starts from the empty set and path. -/
def findCycles (g : Graph) (scc : List String) (maxLen : Nat) :
    List (List String) :=
  scc.flatMap (fun v => cyclesGo (succsOf g) v (maxLen + 1) 0 v [] [])

/-- Consecutive pairs of a cycle including the wraparound pair, i.e.
`(cycle[i], cycle[(i+1) % len])` for each `i`. -/
def cyclePairs (cycle : List String) : List (String × String) :=
  cycle.zip (cycle.rotate 1)

/-- Append `x` unless already present: insertion-order set accumulation. -/
def insertIfAbsent (xs : List String) (x : String) : List String :=
  if x ∈ xs then xs else xs ++ [x]

/-- The `tokenMap` computation of `ProcessNetting`: every token labelling an
edge between a consecutive pair of the cycle, in first-appearance order. -/
def tokensOnCycle (g : Graph) (cycle : List String) : List String :=
  ((cyclePairs cycle).flatMap
    (fun p => ((edgesOf g p.1).filter (fun e => e.dst == p.2)).map
      (fun e => e.token))).foldl insertIfAbsent []

/-- The inner edge scan of `CalculateNetting` and `ApplyNetting`: amount of
the first edge matching `(to, token)`, `none` when no edge matches. -/
def firstMatch (es : List Edge) (dst tok : String) : Option Nat :=
  match es with
  | [] => none
  | e :: rest =>
      if e.dst = dst ∧ e.token = tok then some e.amount
      else firstMatch rest dst tok

/-- The minimum loop of `CalculateNetting` over the cycle's pairs, carrying
the running minimum `mn`, initially the `math.MaxUint64` sentinel. -/
def findMin (g : Graph) (tok : String) : Nat → List (String × String) → Nat
  | mn, [] => mn
  | mn, p :: rest =>
      match firstMatch (edgesOf g p.1) p.2 tok with
      | some a => findMin g tok (if a < mn then a else mn) rest
      | none => findMin g tok mn rest

/-- `Graph.CalculateNetting` from src/main.go: minimum matching-edge amount
around the cycle, starting from the `math.MaxUint64` sentinel. -/
def calculateNetting (g : Graph) (cycle : List String) (tok : String) : Nat :=
  findMin g tok (U64 - 1) (cyclePairs cycle)

/-- The find-and-update loop of `ApplyNetting`: subtract `amt` (wrapping, as
Go's `-=` on `uint64`) from the first edge matching `(to, token)`. -/
def subtractEdge (amt : Nat) (dst tok : String) : List Edge → List Edge
  | [] => []
  | e :: rest =>
      if e.dst = dst ∧ e.token = tok then
        { e with amount := usub e.amount amt } :: rest
      else
        e :: subtractEdge amt dst tok rest

/-- In-place update of the first entry of key `src`; a no-op when `src` has
no entry, as ranging over Go's nil slice is. -/
def updateEdges (g : Graph) (src : String) (upd : List Edge → List Edge) :
    Graph :=
  match g with
  | [] => []
  | (k, es) :: rest =>
      if k = src then (k, upd es) :: rest
      else (k, es) :: updateEdges rest src upd

/-- `Graph.ApplyNetting` from src/main.go: subtract `amt` from the matching
edge of every consecutive pair of the cycle. -/
def applyNetting (g : Graph) (cycle : List String) (tok : String) (amt : Nat) :
    Graph :=
  (cyclePairs cycle).foldl
    (fun g' p => updateEdges g' p.1 (subtractEdge amt p.2 tok)) g

/-- `Graph.ToIntents` from src/main.go: every positive-amount edge as an
intent, parties in insertion order. -/
def toIntents (g : Graph) : List Intent :=
  g.flatMap (fun p =>
    (p.2.filter (fun e => decide (0 < e.amount))).map
      (fun e => ⟨p.1, e.dst, e.token, e.amount⟩))

/-- The cycle-length bound `ProcessNetting` passes to `FindCycles`. -/
def maxCycleLength : Nat := 4

/-- Body of the per-token loop of `ProcessNetting`: compute the netting
amount and apply it when positive. -/
def processOneToken (cycle : List String) (g : Graph) (tok : String) : Graph :=
  let amount := calculateNetting g cycle tok
  if 0 < amount then applyNetting g cycle tok amount else g

/-- Body of the per-cycle loop of `ProcessNetting`: determine the cycle's
tokens, then net each. -/
def processOneCycle (g : Graph) (cycle : List String) : Graph :=
  (tokensOnCycle g cycle).foldl (processOneToken cycle) g

/-- Body of the per-SCC loop of `ProcessNetting`: enumerate the cycles of the
SCC (bound `maxCycleLength`), then process each. -/
def processOneScc (g : Graph) (scc : List String) : Graph :=
  (findCycles g scc maxCycleLength).foldl processOneCycle g

/-- `ProcessNetting` from src/main.go: build the graph, find SCCs, net every
cycle of every SCC per token, extract residual intents.  `none` only on
Tarjan fuel exhaustion, which the fuel choice in `findSCCs` prevents. -/
def processNetting (intents : List Intent) : Option (List Intent) :=
  let g := buildGraph intents
  match findSCCs g with
  | none => none
  | some sccs => some (toIntents (sccs.foldl processOneScc g))

/-- Modelled from the spec: the netting relation it requires the output to be
equivalent to the input under — a party's net position in a token, total
amount it owes minus total amount owed to it. -/
def netPosition (intents : List Intent) (p tok : String) : Int :=
  (((intents.filter (fun i => i.sender == p && i.token == tok)).map
      (fun i => i.amount)).sum : Nat)
  - (((intents.filter (fun i => i.receiver == p && i.token == tok)).map
      (fun i => i.amount)).sum : Nat)

/-- There is an edge `(src, to, tok)` in the graph. -/
def hasTriple (g : Graph) (src dst tok : String) : Prop :=
  ∃ e ∈ edgesOf g src, e.dst = dst ∧ e.token = tok

instance (g : Graph) (src dst tok : String) :
    Decidable (hasTriple g src dst tok) := by
  unfold hasTriple
  infer_instance

/-- The graph invariant of the spec's data model: keys are unique and each
party has at most one edge per `(to, token)` pair. -/
def GraphInv (g : Graph) : Prop :=
  (g.map (fun p => p.1)).Nodup ∧
  ∀ p ∈ g, (p.2.map (fun e => (e.dst, e.token))).Nodup

instance (g : Graph) : Decidable (GraphInv g) := by
  unfold GraphInv
  infer_instance

/-! Concrete inputs used by the evaluation theorems and witnesses below. -/

/-- A three-party ring in which the edge `C → A` carries a different token
than the other two edges. -/
def exMixedTokens : List Intent :=
  [⟨"A", "B", "T", 10⟩, ⟨"B", "C", "T", 5⟩, ⟨"C", "A", "U", 7⟩]

/-- A two-party ring carrying only token `T1`. -/
def exOneTokenRing : Graph :=
  [("A", [⟨"B", "T1", 5⟩]), ("B", [⟨"A", "T1", 5⟩])]

/-- A single edge of amount 5. -/
def exSingleEdge : Graph :=
  [("A", [⟨"B", "T", 5⟩])]

/-- The worked example of the spec's §8: `A→B: 100, B→C: 50, C→A: 30`. -/
def exPartial : List Intent :=
  [⟨"A", "B", "ETH", 100⟩, ⟨"B", "C", "ETH", 50⟩, ⟨"C", "A", "ETH", 30⟩]

/-- A three-party ring carrying token `t` on all edges and token `u` on all
edges, with the per-token minima on different edges. -/
def exTwoTokenRing : List Intent :=
  [⟨"A", "B", "t", 10⟩, ⟨"B", "C", "t", 10⟩, ⟨"C", "A", "t", 5⟩,
   ⟨"A", "B", "u", 3⟩, ⟨"B", "C", "u", 3⟩, ⟨"C", "A", "u", 10⟩]

/-- A self-loop on `A` together with a two-party ring `A ↔ B`. -/
def exSelfLoopInScc : List Intent :=
  [⟨"A", "A", "T", 5⟩, ⟨"A", "B", "T", 1⟩, ⟨"B", "A", "T", 1⟩]

/-- A zero-amount intent and a duplicated `(sender, receiver, token)` triple;
the built graph has no multi-vertex SCC. -/
def exAcyclicDegenerate : List Intent :=
  [⟨"A", "B", "T", 0⟩, ⟨"C", "D", "T", 2⟩, ⟨"C", "D", "T", 3⟩]

/-- A self-loop on `A` and an unrelated edge; no multi-vertex SCC. -/
def exSelfLoopAlone : List Intent :=
  [⟨"A", "A", "T", 5⟩, ⟨"B", "C", "T", 1⟩]

/-- The effect of `AddEdge` on the edge list of the inserted edge's source:
merge into the first matching edge, else append. -/
def addToList (es : List Edge) (dst tok : String) (a : Nat) : List Edge :=
  match mergeEdge es dst tok a with
  | some es' => es'
  | none => es ++ [⟨dst, tok, a % U64⟩]

/-- A two-edge acyclic chain with distinct triples and positive amounts. -/
def exAcyclicChain : List Intent :=
  [⟨"A", "B", "T", 5⟩, ⟨"B", "C", "T", 7⟩]

/-! Claim theorems. -/

/-- Claim C1 (code bug, evaluation): the output of `ProcessNetting` is not
semantically equivalent to the input under the netting relation.  On
`exMixedTokens` the cycle `A→B→C→A` is netted per token even though token
`T` is missing on the pair `(C, A)` and token `U` is missing on the pairs
`(A, B)` and `(B, C)`: the min is taken only over the pairs that have a
matching edge and the subtraction is applied only to those pairs.  Party
`C`'s net position in token `U` is 7 in the input and 0 in the output. -/
theorem c1_netting_not_conservative_eval :
    processNetting exMixedTokens = some [⟨"A", "B", "T", 5⟩] ∧
    netPosition exMixedTokens "C" "U" = 7 ∧
    netPosition [⟨"A", "B", "T", 5⟩] "C" "U" = 0 := by
  decide

/-- Claim C2 (code bug, evaluation): when no consecutive pair of the cycle
carries the requested token, `CalculateNetting` returns the unbounded
sentinel `math.MaxUint64 = 2^64 - 1` instead of signalling "not
applicable".  On `exOneTokenRing` (both edges in token `T1`) the calculator
queried for token `T2` finds no matching edge on either pair. -/
theorem c2_sentinel_returned_eval :
    calculateNetting exOneTokenRing ["A", "B"] "T2" = U64 - 1 ∧
    firstMatch (edgesOf exOneTokenRing "A") "B" "T2" = none ∧
    firstMatch (edgesOf exOneTokenRing "B") "A" "T2" = none := by
  decide

/-- Claim C3 (code bug, evaluation): `ApplyNetting` performs Go's wrapping
`-=` with no underflow check.  Subtracting 7 from the single edge of amount
5 silently wraps to `2^64 - 2` instead of aborting with an internal error. -/
theorem c3_wrapping_subtraction_eval :
    edgesOf exSingleEdge "A" = [⟨"B", "T", 5⟩] ∧
    applyNetting exSingleEdge ["A", "B"] "T" 7 =
      [("A", [⟨"B", "T", 18446744073709551614⟩])] := by
  decide

/-- Claim C7 (confirmed): on `A→B: 100, B→C: 50, C→A: 30` (one token) the
pipeline nets the cycle by the minimum edge amount 30 and returns exactly
the residuals `A→B: 70` and `B→C: 20`, the zeroed edge `C→A` dropped. -/
theorem c7_partial_cancellation :
    processNetting exPartial =
      some [⟨"A", "B", "ETH", 70⟩, ⟨"B", "C", "ETH", 20⟩] := by
  decide

/-- Claim C9 (code bug, evaluation): `ProcessNetting` is not idempotent.  On
`exTwoTokenRing` the first run zeroes token `t` on `C→A` and token `u` on
`A→B` and `B→C`; the zeroed edges are dropped from the output, so the second
run sees rings in which each token is missing on one pair, nets them anyway
(the missing pair is skipped by the calculator and the applier), and returns
the empty list. -/
theorem c9_not_idempotent_eval :
    processNetting exTwoTokenRing =
      some [⟨"A", "B", "t", 5⟩, ⟨"B", "C", "t", 5⟩, ⟨"C", "A", "u", 7⟩] ∧
    processNetting [⟨"A", "B", "t", 5⟩, ⟨"B", "C", "t", 5⟩,
      ⟨"C", "A", "u", 7⟩] = some [] ∧
    processNetting ((processNetting exTwoTokenRing).getD []) ≠
      processNetting exTwoTokenRing := by
  decide

/-- Claim C6 (counterexample): an input whose graph is acyclic (no SCC of
size ≥ 2, witnessed by `findSCCs` returning the empty list) for which the
extracted intents do not equal the input: the zero-amount intent is dropped
and the duplicated `(C, D, T)` intents are merged into one of amount 5, so
the output is not even a permutation of the input. -/
theorem c6_counterexample :
    findSCCs (buildGraph exAcyclicDegenerate) = some [] ∧
    processNetting exAcyclicDegenerate = some [⟨"C", "D", "T", 5⟩] ∧
    ¬ List.Perm [(⟨"C", "D", "T", 5⟩ : Intent)] exAcyclicDegenerate := by
  decide

/-- Claim C10 (counterexample): a self-loop on a party inside a multi-vertex
SCC does not form a discarded size-1 SCC; it is enumerated as a 1-cycle and
netted away.  On `exSelfLoopInScc` the merged self-loop `A→A: 5` (amount
positive) is absent from the output, which is empty. -/
theorem c10_counterexample :
    edgesOf (buildGraph exSelfLoopInScc) "A" = [⟨"A", "T", 5⟩, ⟨"B", "T", 1⟩] ∧
    findSCCs (buildGraph exSelfLoopInScc) = some [["B", "A"]] ∧
    processNetting exSelfLoopInScc = some [] := by
  decide

/-! Helper lemmas on `subtractEdge`, `updateEdges` and `applyNetting`. -/

/-- `subtractEdge` changes at most one edge, and only one whose token is
`tok`: the sublist of edges in any other token is untouched. -/
theorem subtractEdge_filter_ne (amt : Nat) (dst tok : String) :
    ∀ es : List Edge,
      (subtractEdge amt dst tok es).filter (fun e => e.token != tok) =
        es.filter (fun e => e.token != tok)
  | [] => rfl
  | e :: rest => by
      by_cases h : e.dst = dst ∧ e.token = tok
      · simp [subtractEdge, h, List.filter_cons, h.2]
      · simp only [subtractEdge, if_neg h, List.filter_cons,
          subtractEdge_filter_ne amt dst tok rest]

/-- Filtered-edge view of `updateEdges` with `subtractEdge`: for every party,
edges in tokens other than `tok` are unchanged. -/
theorem updateEdges_filter_ne (amt : Nat) (src dst tok u : String) :
    ∀ g : Graph,
      (edgesOf (updateEdges g src (subtractEdge amt dst tok)) u).filter
          (fun e => e.token != tok) =
        (edgesOf g u).filter (fun e => e.token != tok)
  | [] => rfl
  | (k, es) :: rest => by
      by_cases hk : k = src
      · simp only [updateEdges, if_pos hk]
        by_cases hu : u = k
        · simp [edgesOf, List.lookup, hu, subtractEdge_filter_ne]
        · simp [edgesOf, List.lookup, beq_eq_false_iff_ne.mpr hu]
      · simp only [updateEdges, if_neg hk]
        by_cases hu : u = k
        · simp [edgesOf, List.lookup, hu]
        · simp only [edgesOf, List.lookup, beq_eq_false_iff_ne.mpr hu]
          exact updateEdges_filter_ne amt src dst tok u rest

/-- The fold of `applyNetting` preserves, for every party, the sublist of
edges in tokens other than `tok`. -/
theorem applyFold_filter_ne (amt : Nat) (tok u : String) :
    ∀ (ps : List (String × String)) (g : Graph),
      (edgesOf (ps.foldl
          (fun g' p => updateEdges g' p.1 (subtractEdge amt p.2 tok)) g)
        u).filter (fun e => e.token != tok) =
        (edgesOf g u).filter (fun e => e.token != tok)
  | [], _ => rfl
  | p :: rest, g => by
      rw [List.foldl_cons, applyFold_filter_ne amt tok u rest,
        updateEdges_filter_ne]

/-- Claim C8 (confirmed): `ApplyNetting` on a cycle and token `tok` leaves
every edge whose token differs from `tok` completely unchanged — for every
party, the sublist of its edges carrying any other token (destinations,
tokens and amounts, in order) is the same before and after, including edges
between the same party pairs as the cycle's edges. -/
theorem c8_token_isolation (g : Graph) (cycle : List String) (tok : String)
    (amt : Nat) (p : String) :
    (edgesOf (applyNetting g cycle tok amt) p).filter
        (fun e => e.token != tok) =
      (edgesOf g p).filter (fun e => e.token != tok) :=
  applyFold_filter_ne amt tok p (cyclePairs cycle) g

/-! Helper lemmas on `mergeEdge` and `addEdge`. -/

/-- `mergeEdge` finds nothing exactly when no edge matches `(dst, tok)`. -/
theorem mergeEdge_eq_none (dst tok : String) (a : Nat) :
    ∀ es : List Edge, mergeEdge es dst tok a = none ↔
      ∀ e ∈ es, ¬ (e.dst = dst ∧ e.token = tok)
  | [] => by simp [mergeEdge]
  | e :: rest => by
      by_cases h : e.dst = dst ∧ e.token = tok
      · simp [mergeEdge, h]
      · simp only [mergeEdge, if_neg h, Option.map_eq_none',
          mergeEdge_eq_none dst tok a rest, List.mem_cons]
        constructor
        · rintro hall e' (rfl | he')
          · exact h
          · exact hall e' he'
        · intro hall e' he'
          exact hall e' (Or.inr he')

/-- A successful `mergeEdge` changes one amount only: the `(dst, token)`
shape of the edge list is unchanged. -/
theorem mergeEdge_some_shape (dst tok : String) (a : Nat) :
    ∀ es es' : List Edge, mergeEdge es dst tok a = some es' →
      es'.map (fun e => (e.dst, e.token)) = es.map (fun e => (e.dst, e.token))
  | [], es' => by simp [mergeEdge]
  | e :: rest, es' => by
      by_cases h : e.dst = dst ∧ e.token = tok
      · simp only [mergeEdge, if_pos h, Option.some.injEq]
        rintro rfl
        simp
      · simp only [mergeEdge, if_neg h, Option.map_eq_some']
        rintro ⟨es'', hm, rfl⟩
        simp [mergeEdge_some_shape dst tok a rest es'' hm]

/-- `mergeEdge` over an append whose first part has no match. -/
theorem mergeEdge_append_none (dst tok : String) (a : Nat) :
    ∀ es₁ es₂ : List Edge, mergeEdge es₁ dst tok a = none →
      mergeEdge (es₁ ++ es₂) dst tok a =
        (mergeEdge es₂ dst tok a).map (fun es' => es₁ ++ es')
  | [], es₂ => by simp
  | e :: rest, es₂ => by
      by_cases h : e.dst = dst ∧ e.token = tok
      · simp [mergeEdge, h]
      · simp only [mergeEdge, if_neg h, Option.map_eq_none', List.cons_append,
          List.append_eq]
        intro hrest
        rw [mergeEdge_append_none dst tok a rest es₂ hrest]
        cases mergeEdge es₂ dst tok a <;> simp

/-- The key list of `addEdge`: unchanged when `src` is already a key, else
extended by `src` at the end. -/
theorem keys_addEdge (src dst tok : String) (a : Nat) :
    ∀ g : Graph, (addEdge g src dst tok a).map (fun p => p.1) =
      if src ∈ g.map (fun p => p.1) then g.map (fun p => p.1)
      else g.map (fun p => p.1) ++ [src]
  | [] => by simp [addEdge]
  | (k, es) :: rest => by
      by_cases hk : k = src
      · subst hk
        cases hm : mergeEdge es dst tok a <;>
          simp [addEdge, hm]
      · have hne : ¬ src = k := fun h => hk h.symm
        simp only [addEdge, if_neg hk, List.map_cons, List.mem_cons, hne,
          false_or, keys_addEdge src dst tok a rest]
        by_cases hmem : src ∈ rest.map (fun p => p.1) <;> simp [hmem]

/-- `edgesOf` on a cons cell of the association list. -/
theorem edgesOf_cons (k : String) (es : List Edge) (g : Graph) (u : String) :
    edgesOf ((k, es) :: g) u = if u = k then es else edgesOf g u := by
  by_cases hu : u = k
  · simp [edgesOf, List.lookup, hu]
  · simp [edgesOf, List.lookup, beq_eq_false_iff_ne.mpr hu, hu]

/-- The edge list of any vertex after `addEdge`: `addToList` at `src`,
unchanged elsewhere. -/
theorem edgesOf_addEdge (src dst tok u : String) (a : Nat) :
    ∀ g : Graph, edgesOf (addEdge g src dst tok a) u =
      if u = src then addToList (edgesOf g src) dst tok a else edgesOf g u
  | [] => by
      by_cases hu : u = src
      · simp [addEdge, edgesOf, List.lookup, hu, addToList, mergeEdge]
      · simp [addEdge, edgesOf, List.lookup, beq_eq_false_iff_ne.mpr hu, hu]
  | (k, es) :: rest => by
      by_cases hk : k = src
      · subst hk
        by_cases hu : u = k
        · cases hm : mergeEdge es dst tok a <;>
            simp [addEdge, hm, edgesOf_cons, hu, addToList]
        · cases hm : mergeEdge es dst tok a <;>
            simp [addEdge, hm, edgesOf_cons, hu]
      · have hsk : ¬ src = k := fun hcon => hk hcon.symm
        by_cases hu : u = k
        · have hus : ¬ u = src := fun hcon => hsk (hcon.symm.trans hu)
          simp [addEdge, hk, edgesOf_cons, hu, hus]
        · simp only [addEdge, if_neg hk, edgesOf_cons, if_neg hu, if_neg hsk]
          exact edgesOf_addEdge src dst tok u a rest

/-- `addEdge` preserves the graph invariant: keys stay unique and no party
gains a second edge for the same `(dst, token)` pair. -/
theorem graphInv_addEdge (src dst tok : String) (a : Nat) :
    ∀ g : Graph, GraphInv g → GraphInv (addEdge g src dst tok a)
  | [], _ => by
      constructor
      · simp [addEdge]
      · intro p hp
        simp only [addEdge, List.mem_singleton] at hp
        subst hp
        simp
  | (k, es) :: rest, hInv => by
      obtain ⟨hkeys, hents⟩ := hInv
      simp only [List.map_cons, List.nodup_cons] at hkeys
      by_cases hk : k = src
      · subst hk
        cases hm : mergeEdge es dst tok a with
        | some es' =>
            simp only [addEdge, if_pos rfl, hm]
            refine ⟨by simpa using hkeys, ?_⟩
            intro p hp
            rcases List.mem_cons.mp hp with rfl | hp'
            · have := hents (k, es) (List.mem_cons_self _ _)
              simpa [mergeEdge_some_shape dst tok a es es' hm] using this
            · exact hents p (List.mem_cons_of_mem _ hp')
        | none =>
            simp only [addEdge, if_pos rfl, hm]
            refine ⟨by simpa using hkeys, ?_⟩
            intro p hp
            rcases List.mem_cons.mp hp with rfl | hp'
            · have hhead := hents (k, es) (List.mem_cons_self _ _)
              have hnomem : (dst, tok) ∉ es.map (fun e => (e.dst, e.token)) := by
                intro hmem
                obtain ⟨e, he, hpair⟩ := List.mem_map.mp hmem
                exact (mergeEdge_eq_none dst tok a es).mp hm e he
                  ⟨congrArg Prod.fst hpair, congrArg Prod.snd hpair⟩
              simp only [List.map_append, List.map_cons, List.map_nil]
              exact hhead.append (by simp)
                (by simpa [List.disjoint_singleton] using hnomem)
            · exact hents p (List.mem_cons_of_mem _ hp')
      · have hrest : GraphInv rest :=
          ⟨hkeys.2, fun p hp => hents p (List.mem_cons_of_mem _ hp)⟩
        have ih := graphInv_addEdge src dst tok a rest hrest
        constructor
        · simp only [addEdge, if_neg hk, List.map_cons, List.nodup_cons]
          refine ⟨?_, ih.1⟩
          rw [keys_addEdge]
          by_cases hmem : src ∈ rest.map (fun p => p.1)
          · simpa [hmem] using hkeys.1
          · simp only [if_neg hmem, List.mem_append, List.mem_singleton]
            rintro (hkk | rfl)
            · exact hkeys.1 hkk
            · exact hk rfl
        · simp only [addEdge, if_neg hk]
          intro p hp
          rcases List.mem_cons.mp hp with rfl | hp'
          · exact hents (k, es) (List.mem_cons_self _ _)
          · exact ih.2 p hp' 

/-- Claim C4 (confirmed): the graph maintains at most one edge per
`(from, to, token)` triple — `AddEdge` preserves the invariant from any
state satisfying it — and inserting `(A,B,T,x)` then `(A,B,T,y)` when no
`(A,B,T)` edge exists produces exactly one `(A,B,T)` edge, whose amount is
`(x + y) % 2^64` (the `uint64` sum `x + y`). -/
theorem c4_merge_invariant (g : Graph) (hInv : GraphInv g) :
    (∀ src dst tok : String, ∀ a : Nat, GraphInv (addEdge g src dst tok a)) ∧
    (∀ A B T : String, ∀ x y : Nat, ¬ hasTriple g A B T →
      ((edgesOf (addEdge (addEdge g A B T x) A B T y) A).filter
          (fun e => decide (e.dst = B ∧ e.token = T))).map
        (fun e => e.amount) = [(x + y) % U64]) := by
  constructor
  · intro src dst tok a
    exact graphInv_addEdge src dst tok a g hInv
  · intro A B T x y hfresh
    have hes : ∀ e ∈ edgesOf g A, ¬ (e.dst = B ∧ e.token = T) := by
      intro e he hmatch
      exact hfresh ⟨e, he, hmatch⟩
    have hm1 : mergeEdge (edgesOf g A) B T x = none :=
      (mergeEdge_eq_none B T x _).mpr hes
    have hm2 : mergeEdge (edgesOf g A) B T y = none :=
      (mergeEdge_eq_none B T y _).mpr hes
    have happ := mergeEdge_append_none B T y (edgesOf g A)
      [⟨B, T, x % U64⟩] hm2
    have hsingle : mergeEdge [(⟨B, T, x % U64⟩ : Edge)] B T y =
        some [⟨B, T, (x % U64 + y) % U64⟩] := by
      simp [mergeEdge]
    have hfilter : (edgesOf g A).filter
        (fun e => decide (e.dst = B ∧ e.token = T)) = [] :=
      List.filter_eq_nil_iff.mpr (fun e he => by simpa using hes e he)
    rw [edgesOf_addEdge, if_pos rfl, edgesOf_addEdge, if_pos rfl]
    simp only [addToList, hm1, happ, hsingle, Option.map_some']
    rw [List.filter_append, hfilter]
    simp [Nat.mod_add_mod]

/-- Witness for C4 at the concrete one-edge graph `exSingleEdge`. -/
theorem c4_witness :
    GraphInv exSingleEdge ∧
    ((∀ src dst tok : String, ∀ a : Nat,
        GraphInv (addEdge exSingleEdge src dst tok a)) ∧
      (∀ A B T : String, ∀ x y : Nat, ¬ hasTriple exSingleEdge A B T →
        ((edgesOf (addEdge (addEdge exSingleEdge A B T x) A B T y) A).filter
            (fun e => decide (e.dst = B ∧ e.token = T))).map
          (fun e => e.amount) = [(x + y) % U64])) :=
  ⟨by decide, c4_merge_invariant exSingleEdge (by decide)⟩

/-- Every cycle the edge loop emits comes from some recursive call. -/
theorem cyclesGoEdges_bound (recur : String → List (List String))
    (start : String) (visited : List String) (k : Nat)
    (h : ∀ w, ∀ c ∈ recur w, c.length ≤ k) :
    ∀ ws, ∀ c ∈ cyclesGoEdges recur start visited ws, c.length ≤ k
  | [] => by simp [cyclesGoEdges]
  | w :: rest => by
      intro c hc
      simp only [cyclesGoEdges, List.mem_append] at hc
      rcases hc with hc | hc
      · by_cases hw : ¬ w ∈ visited ∨ w = start
        · exact h w c (by simpa [if_pos hw] using hc)
        · simp [if_neg hw] at hc
      · exact cyclesGoEdges_bound recur start visited k h rest c hc

/-- A cycle recorded by `cyclesGo` is the current path, whose length is the
current depth; with `fuel + depth = k + 1` the depth at recording time is at
most `k`. -/
theorem cyclesGo_bound (succs : String → List String) (start : String)
    (k : Nat) :
    ∀ fuel : Nat, ∀ depth current visited path,
      path.length = depth → fuel + depth = k + 1 →
      ∀ c ∈ cyclesGo succs start fuel depth current visited path, c.length ≤ k
  | 0 => by
      intro depth current visited path _ _ c hc
      simp [cyclesGo] at hc
  | fuel + 1 => by
      intro depth current visited path hlen hsum c hc
      rw [cyclesGo] at hc
      by_cases hstop : 0 < depth ∧ current = start
      · rw [if_pos hstop] at hc
        simp only [List.mem_singleton] at hc
        subst hc
        omega
      · rw [if_neg hstop] at hc
        refine cyclesGoEdges_bound _ start _ k ?_ _ c hc
        intro w c' hc'
        exact cyclesGo_bound succs start k fuel (depth + 1) w
          (current :: visited) (path ++ [current]) (by simp [hlen])
          (by omega) c' hc'

/-- Claim C5 (confirmed): with `maxLength = k`, every cycle returned by
`FindCycles` has at most `k` vertices — hence at most `k` edges, a cycle of
`d` vertices closing with the wraparound edge having exactly `d` edges —
even if longer cycles exist in the graph; and the bound the pipeline passes
to `FindCycles` is 4. -/
theorem c5_cycle_length_bound (g : Graph) (scc : List String) (k : Nat)
    (_hk : 0 < k) :
    maxCycleLength = 4 ∧ ∀ c ∈ findCycles g scc k, c.length ≤ k := by
  refine ⟨rfl, ?_⟩
  intro c hc
  rw [findCycles] at hc
  obtain ⟨v, _, hc'⟩ := List.mem_flatMap.mp hc
  exact cyclesGo_bound (succsOf g) v k (k + 1) 0 v [] [] rfl (by omega) c hc'

/-- Witness for C5 on the worked three-party example with bound 4. -/
theorem c5_witness :
    0 < 4 ∧ (maxCycleLength = 4 ∧
      ∀ c ∈ findCycles (buildGraph exPartial) ["C", "B", "A"] 4,
        c.length ≤ 4) :=
  ⟨by decide,
    c5_cycle_length_bound (buildGraph exPartial) ["C", "B", "A"] 4 (by decide)⟩

/-! Helper lemmas towards the amended C6: extraction after a no-op pipeline. -/

/-- A triple search over an edge list is a membership in its pair map. -/
theorem hasPair_iff_mem (es : List Edge) (r t : String) :
    (∃ e ∈ es, e.dst = r ∧ e.token = t) ↔
      (r, t) ∈ es.map (fun e => (e.dst, e.token)) := by
  simp only [List.mem_map]
  constructor
  · rintro ⟨e, he, hd, ht⟩
    exact ⟨e, he, by simp [hd, ht]⟩
  · rintro ⟨e, he, hpair⟩
    exact ⟨e, he, congrArg Prod.fst hpair, congrArg Prod.snd hpair⟩

/-- A successful `mergeEdge` requires a matching edge. -/
theorem mergeEdge_some_exists (dst tok : String) (a : Nat) (es es' : List Edge)
    (hm : mergeEdge es dst tok a = some es') :
    ∃ e ∈ es, e.dst = dst ∧ e.token = tok := by
  by_contra hnone
  have hno : ∀ e ∈ es, ¬ (e.dst = dst ∧ e.token = tok) := by
    intro e he hmatch
    exact hnone ⟨e, he, hmatch⟩
  simp [(mergeEdge_eq_none dst tok a es).mpr hno] at hm

/-- Adding an edge creates or keeps exactly the triples of the graph plus
the inserted one. -/
theorem hasTriple_addEdge (g : Graph) (s' r' t' s r t : String) (a : Nat) :
    hasTriple (addEdge g s' r' t' a) s r t ↔
      hasTriple g s r t ∨ (s = s' ∧ r = r' ∧ t = t') := by
  unfold hasTriple
  rw [edgesOf_addEdge]
  by_cases hs : s = s'
  · subst hs
    rw [if_pos rfl]
    cases hm : mergeEdge (edgesOf g s) r' t' a with
    | some es' =>
        have hshape := mergeEdge_some_shape r' t' a (edgesOf g s) es' hm
        rw [addToList, hm, hasPair_iff_mem, hshape, ← hasPair_iff_mem]
        constructor
        · exact Or.inl
        · rintro (h | ⟨-, rfl, rfl⟩)
          · exact h
          · exact mergeEdge_some_exists r t a _ es' hm
    | none =>
        rw [addToList, hm]
        simp only [List.mem_append, List.mem_singleton, true_and]
        constructor
        · rintro ⟨e, he | rfl, hmatch⟩
          · exact Or.inl ⟨e, he, hmatch⟩
          · exact Or.inr ⟨hmatch.1.symm, hmatch.2.symm⟩
        · rintro (⟨e, he, hmatch⟩ | ⟨rfl, rfl⟩)
          · exact ⟨e, Or.inl he, hmatch⟩
          · exact ⟨⟨r, t, a % U64⟩, Or.inr rfl, rfl, rfl⟩
  · rw [if_neg hs]
    simp [hs]

/-- Rotating the middle part of a three-part append to the end is a
permutation. -/
theorem perm_append_rotate {α : Type} (A N C : List α) :
    List.Perm (A ++ N ++ C) (A ++ C ++ N) := by
  rw [List.append_assoc, List.append_assoc]
  exact List.Perm.append_left A List.perm_append_comm

/-- The triples of a built graph are exactly the triples of the input. -/
theorem hasTriple_buildGraph (l : List Intent) (s r t : String) :
    hasTriple (buildGraph l) s r t ↔
      ∃ i ∈ l, i.sender = s ∧ i.receiver = r ∧ i.token = t := by
  induction l using List.reverseRecOn with
  | nil => simp [buildGraph, hasTriple, edgesOf]
  | append_singleton l i ih =>
      rw [buildGraph, List.foldl_append, List.foldl_cons, List.foldl_nil]
      rw [show List.foldl (fun g j => addEdge g j.sender j.receiver j.token
        j.amount) [] l = buildGraph l from rfl]
      rw [hasTriple_addEdge, ih]
      simp only [List.mem_append, List.mem_singleton]
      constructor
      · rintro (⟨j, hj, hm⟩ | ⟨rfl, rfl, rfl⟩)
        · exact ⟨j, Or.inl hj, hm⟩
        · exact ⟨i, Or.inr rfl, rfl, rfl, rfl⟩
      · rintro (⟨j, hj | rfl, hm⟩)
        · exact Or.inl ⟨j, hj, hm⟩
        · exact Or.inr ⟨hm.1.symm, hm.2.1.symm, hm.2.2.symm⟩

/-- `toIntents` on a cons cell of the association list. -/
theorem toIntents_cons (k : String) (es : List Edge) (g : Graph) :
    toIntents ((k, es) :: g) =
      (es.filter (fun e => decide (0 < e.amount))).map
        (fun e => (⟨k, e.dst, e.token, e.amount⟩ : Intent)) ++ toIntents g := by
  simp [toIntents]

/-- Inserting a fresh triple appends (up to permutation) one intent to the
extraction, kept when its `uint64`-reduced amount is positive. -/
theorem toIntents_addEdge_fresh (s r t : String) (a : Nat) :
    ∀ g : Graph, ¬ hasTriple g s r t →
      List.Perm (toIntents (addEdge g s r t a))
        (toIntents g ++ if 0 < a % U64 then [⟨s, r, t, a % U64⟩] else [])
  | [], _ => by
      by_cases hpos : 0 < a % U64 <;>
        simp [toIntents, addEdge, hpos]
  | (k, es) :: rest, hfresh => by
      by_cases hk : k = s
      · subst hk
        have hfresh' : ∀ e ∈ es, ¬ (e.dst = r ∧ e.token = t) := by
          intro e he hmatch
          exact hfresh ⟨e, by simpa [edgesOf_cons] using he, hmatch⟩
        have hm : mergeEdge es r t a = none :=
          (mergeEdge_eq_none r t a es).mpr hfresh'
        have hnew : ((([⟨r, t, a % U64⟩] : List Edge).filter
            (fun e => decide (0 < e.amount))).map
              (fun e => (⟨k, e.dst, e.token, e.amount⟩ : Intent))) =
            if 0 < a % U64 then [⟨k, r, t, a % U64⟩] else [] := by
          by_cases hpos : 0 < a % U64 <;> simp [hpos]
        have hshape : addEdge ((k, es) :: rest) k r t a =
            (k, es ++ [⟨r, t, a % U64⟩]) :: rest := by
          simp [addEdge, hm]
        rw [hshape, toIntents_cons, toIntents_cons, List.filter_append,
          List.map_append, hnew]
        exact perm_append_rotate _ _ _
      · have hfresh' : ¬ hasTriple rest s r t := by
          rintro ⟨e, he, hmatch⟩
          refine hfresh ⟨e, ?_, hmatch⟩
          rw [edgesOf_cons, if_neg (fun h => hk h.symm)]
          exact he
        have ih := toIntents_addEdge_fresh s r t a rest hfresh'
        simp only [addEdge, if_neg hk]
        rw [toIntents_cons, toIntents_cons, List.append_assoc]
        exact List.Perm.append_left _ ih

/-- With pairwise-distinct triples and positive `uint64` amounts, the
extraction of the built graph is a permutation of the input intents. -/
theorem toIntents_buildGraph_perm :
    ∀ l : List Intent,
      (l.map (fun i => (i.sender, i.receiver, i.token))).Nodup →
      (∀ i ∈ l, 0 < i.amount ∧ i.amount < U64) →
      List.Perm (toIntents (buildGraph l)) l := by
  intro l
  induction l using List.reverseRecOn with
  | nil => intro _ _; simp [buildGraph, toIntents]
  | append_singleton l i ih =>
      intro hnodup hpos
      rw [List.map_append, List.map_singleton] at hnodup
      rw [List.nodup_append] at hnodup
      obtain ⟨hnodup_l, -, hdisj⟩ := hnodup
      have hfresh : ¬ hasTriple (buildGraph l) i.sender i.receiver i.token := by
        rw [hasTriple_buildGraph]
        rintro ⟨j, hj, hs, hr, ht⟩
        exact hdisj (List.mem_map.mpr ⟨j, hj, by simp [hs, hr, ht]⟩)
          (List.mem_singleton.mpr rfl)
      have hposl : ∀ j ∈ l, 0 < j.amount ∧ j.amount < U64 := fun j hj =>
        hpos j (List.mem_append.mpr (Or.inl hj))
      have hposi := hpos i (List.mem_append.mpr (Or.inr (List.mem_singleton.mpr rfl)))
      have hbuild : buildGraph (l ++ [i]) =
          addEdge (buildGraph l) i.sender i.receiver i.token i.amount := by
        rw [buildGraph, List.foldl_append, List.foldl_cons, List.foldl_nil]
        rfl
      rw [hbuild]
      refine (toIntents_addEdge_fresh i.sender i.receiver i.token i.amount
        (buildGraph l) hfresh).trans ?_
      have hmod : i.amount % U64 = i.amount := Nat.mod_eq_of_lt hposi.2
      rw [hmod, if_pos hposi.1]
      have heta : (⟨i.sender, i.receiver, i.token, i.amount⟩ : Intent) = i := rfl
      rw [heta]
      exact (ih hnodup_l hposl).append_right [i]

/-- Claim C6 amended (the original claim is refuted by `c6_counterexample`):
for inputs with pairwise-distinct `(sender, receiver, token)` triples,
positive amounts below `2^64`, and no multi-vertex SCC in the built graph,
`ProcessNetting` returns a permutation of the input intents — same pairs and
amounts, possibly regrouped by sender. -/
theorem c6_acyclic_extraction (l : List Intent)
    (hnodup : (l.map (fun i => (i.sender, i.receiver, i.token))).Nodup)
    (hpos : ∀ i ∈ l, 0 < i.amount ∧ i.amount < U64)
    (hscc : findSCCs (buildGraph l) = some []) :
    ∃ res, processNetting l = some res ∧ List.Perm res l := by
  refine ⟨toIntents (buildGraph l), ?_, toIntents_buildGraph_perm l hnodup hpos⟩
  simp only [processNetting, hscc, List.foldl_nil]

/-- Witness for the amended C6 at the concrete acyclic chain input. -/
theorem c6_witness :
    ((exAcyclicChain.map (fun i => (i.sender, i.receiver, i.token))).Nodup ∧
      (∀ i ∈ exAcyclicChain, 0 < i.amount ∧ i.amount < U64) ∧
      findSCCs (buildGraph exAcyclicChain) = some []) ∧
    ∃ res, processNetting exAcyclicChain = some res ∧
      List.Perm res exAcyclicChain :=
  ⟨⟨by decide, by decide, by decide⟩,
    c6_acyclic_extraction exAcyclicChain (by decide) (by decide) (by decide)⟩

/-! Helper lemmas towards the amended C10: the pipeline never touches the
edges of a vertex that lies on no discovered cycle, because `ApplyNetting`
only writes through the cycle's consecutive pairs, and the discovery of
cycles and tokens depends only on the `(dst, token)` structure of the graph,
which netting preserves. -/

/-- `subtractEdge` changes amounts only: the `(dst, token)` shape of the
edge list is unchanged. -/
theorem subtractEdge_pairs (amt : Nat) (dst tok : String) :
    ∀ es : List Edge,
      (subtractEdge amt dst tok es).map (fun e => (e.dst, e.token)) =
        es.map (fun e => (e.dst, e.token))
  | [] => rfl
  | e :: rest => by
      by_cases h : e.dst = dst ∧ e.token = tok
      · simp [subtractEdge, h]
      · simp [subtractEdge, h, subtractEdge_pairs amt dst tok rest]

/-- The edge list of any vertex after `updateEdges` with `subtractEdge`:
subtracted at `src`, unchanged elsewhere. -/
theorem edgesOf_updateEdges_sub (amt : Nat) (src dst tok u : String) :
    ∀ g : Graph,
      edgesOf (updateEdges g src (subtractEdge amt dst tok)) u =
        if u = src then subtractEdge amt dst tok (edgesOf g u) else edgesOf g u
  | [] => by
      by_cases hu : u = src <;>
        simp [updateEdges, edgesOf, List.lookup, hu, subtractEdge]
  | (k, es) :: rest => by
      by_cases hk : k = src
      · subst hk
        by_cases hu : u = k
        · simp [updateEdges, edgesOf_cons, hu]
        · simp [updateEdges, edgesOf_cons, hu]
      · have hsk : ¬ src = k := fun hcon => hk hcon.symm
        by_cases hu : u = k
        · have hus : ¬ u = src := fun hcon => hsk (hcon.symm.trans hu)
          simp [updateEdges, hk, edgesOf_cons, hu, hus]
        · simp only [updateEdges, if_neg hk, edgesOf_cons, if_neg hu]
          exact edgesOf_updateEdges_sub amt src dst tok u rest

/-- Netting a cycle keeps the `(dst, token)` shape of every vertex's edges. -/
theorem applyNetting_pairs (tok : String) (amt : Nat) (u : String) :
    ∀ (ps : List (String × String)) (g : Graph),
      (edgesOf (ps.foldl
          (fun g' p => updateEdges g' p.1 (subtractEdge amt p.2 tok)) g)
        u).map (fun e => (e.dst, e.token)) =
        (edgesOf g u).map (fun e => (e.dst, e.token))
  | [], _ => rfl
  | p :: rest, g => by
      rw [List.foldl_cons, applyNetting_pairs tok amt u rest,
        edgesOf_updateEdges_sub]
      by_cases hu : u = p.1
      · simp [hu, subtractEdge_pairs]
      · simp [hu]

/-- Netting a cycle that avoids `v` leaves `v`'s edge list untouched. -/
theorem applyNetting_edges_of_not_mem (tok : String) (amt : Nat) (v : String) :
    ∀ (ps : List (String × String)) (g : Graph), (∀ p ∈ ps, p.1 ≠ v) →
      edgesOf (ps.foldl
          (fun g' p => updateEdges g' p.1 (subtractEdge amt p.2 tok)) g) v =
        edgesOf g v
  | [], _, _ => rfl
  | p :: rest, g, h => by
      rw [List.foldl_cons,
        applyNetting_edges_of_not_mem tok amt v rest _
          (fun q hq => h q (List.mem_cons_of_mem _ hq)),
        edgesOf_updateEdges_sub,
        if_neg (fun hcon => h p (List.mem_cons_self _ _) hcon.symm)]

/-- The first component of a cycle pair is a cycle vertex. -/
theorem cyclePairs_fst_mem (cycle : List String) (p : String × String)
    (hp : p ∈ cyclePairs cycle) : p.1 ∈ cycle := by
  rw [cyclePairs] at hp
  exact (List.of_mem_zip hp).1

/-- Equal `(dst, token)` shapes give equal successor lists. -/
theorem succsOf_congr (g g' : Graph) (u : String)
    (h : (edgesOf g u).map (fun e => (e.dst, e.token)) =
      (edgesOf g' u).map (fun e => (e.dst, e.token))) :
    succsOf g u = succsOf g' u := by
  have h1 : succsOf g u =
      ((edgesOf g u).map (fun e => (e.dst, e.token))).map Prod.fst := by
    simp [succsOf, List.map_map, Function.comp]
  have h2 : succsOf g' u =
      ((edgesOf g' u).map (fun e => (e.dst, e.token))).map Prod.fst := by
    simp [succsOf, List.map_map, Function.comp]
  rw [h1, h2, h]

/-- Cycle search depends only on the successor structure. -/
theorem findCycles_congr (g g' : Graph) (scc : List String) (k : Nat)
    (h : ∀ u, succsOf g u = succsOf g' u) :
    findCycles g scc k = findCycles g' scc k := by
  unfold findCycles
  rw [funext h]

/-- Equal `(dst, token)` shapes give equal filtered token lists. -/
theorem filterDst_congr (x : String) :
    ∀ es es' : List Edge,
      es.map (fun e => (e.dst, e.token)) = es'.map (fun e => (e.dst, e.token)) →
      (es.filter (fun e => e.dst == x)).map (fun e => e.token) =
        (es'.filter (fun e => e.dst == x)).map (fun e => e.token)
  | [], es', h => by
      rw [List.map_nil] at h
      rw [List.eq_nil_of_map_eq_nil h.symm]
  | e :: rest, es', h => by
      cases es' with
      | nil => simp at h
      | cons e' rest' =>
          simp only [List.map_cons, List.cons.injEq, Prod.mk.injEq] at h
          obtain ⟨⟨hd, ht⟩, htail⟩ := h
          have ih := filterDst_congr x rest rest' htail
          by_cases hx : e.dst = x
          · have hbe : (e.dst == x) = true := beq_iff_eq.mpr hx
            have hbe' : (e'.dst == x) = true := beq_iff_eq.mpr (hd ▸ hx)
            simp [List.filter_cons, hbe, hbe', ht, ih]
          · have hbe : (e.dst == x) = false := beq_eq_false_iff_ne.mpr hx
            have hbe' : (e'.dst == x) = false :=
              beq_eq_false_iff_ne.mpr (hd ▸ hx)
            simp [List.filter_cons, hbe, hbe', ih]
  termination_by es => es.length

/-- Token discovery depends only on the `(dst, token)` structure. -/
theorem tokensOnCycle_congr (g g' : Graph) (cycle : List String)
    (h : ∀ u, (edgesOf g u).map (fun e => (e.dst, e.token)) =
      (edgesOf g' u).map (fun e => (e.dst, e.token))) :
    tokensOnCycle g cycle = tokensOnCycle g' cycle := by
  unfold tokensOnCycle
  congr 1
  induction cyclePairs cycle with
  | nil => rfl
  | cons p rest ih =>
      rw [List.flatMap_cons, List.flatMap_cons, ih,
        filterDst_congr p.2 (edgesOf g p.1) (edgesOf g' p.1) (h p.1)]

/-- One token-netting step keeps the `(dst, token)` shape of every vertex. -/
theorem processOneToken_pairs (cycle : List String) (g : Graph)
    (tok u : String) :
    (edgesOf (processOneToken cycle g tok) u).map (fun e => (e.dst, e.token)) =
      (edgesOf g u).map (fun e => (e.dst, e.token)) := by
  unfold processOneToken applyNetting
  by_cases h : 0 < calculateNetting g cycle tok
  · rw [if_pos h]
    exact applyNetting_pairs tok _ u (cyclePairs cycle) g
  · rw [if_neg h]

/-- One token-netting step on a cycle avoiding `v` keeps `v`'s edges. -/
theorem processOneToken_edges (cycle : List String) (g : Graph)
    (tok v : String) (hv : v ∉ cycle) :
    edgesOf (processOneToken cycle g tok) v = edgesOf g v := by
  unfold processOneToken applyNetting
  by_cases h : 0 < calculateNetting g cycle tok
  · rw [if_pos h]
    refine applyNetting_edges_of_not_mem tok _ v (cyclePairs cycle) g ?_
    intro p hp hcon
    exact hv (hcon ▸ cyclePairs_fst_mem cycle p hp)
  · rw [if_neg h]

/-- The token fold of one cycle keeps the `(dst, token)` shape. -/
theorem foldTokens_pairs (cycle : List String) (u : String) :
    ∀ (toks : List String) (g : Graph),
      (edgesOf (toks.foldl (processOneToken cycle) g) u).map
          (fun e => (e.dst, e.token)) =
        (edgesOf g u).map (fun e => (e.dst, e.token))
  | [], _ => rfl
  | tok :: rest, g => by
      rw [List.foldl_cons, foldTokens_pairs cycle u rest,
        processOneToken_pairs]

/-- The token fold of a cycle avoiding `v` keeps `v`'s edges. -/
theorem foldTokens_edges (cycle : List String) (v : String) (hv : v ∉ cycle) :
    ∀ (toks : List String) (g : Graph),
      edgesOf (toks.foldl (processOneToken cycle) g) v = edgesOf g v
  | [], _ => rfl
  | tok :: rest, g => by
      rw [List.foldl_cons, foldTokens_edges cycle v hv rest,
        processOneToken_edges cycle g tok v hv]

/-- The cycle fold keeps the `(dst, token)` shape of every vertex and, when
every processed cycle avoids `v`, also `v`'s edge list. -/
theorem foldCycles_inv (g0 : Graph) (v u : String) :
    ∀ (cycles : List (List String)) (g : Graph),
      (∀ w, (edgesOf g w).map (fun e => (e.dst, e.token)) =
        (edgesOf g0 w).map (fun e => (e.dst, e.token))) →
      edgesOf g v = edgesOf g0 v →
      (∀ c ∈ cycles, v ∉ c) →
      (edgesOf (cycles.foldl processOneCycle g) u).map
          (fun e => (e.dst, e.token)) =
        (edgesOf g0 u).map (fun e => (e.dst, e.token)) ∧
      edgesOf (cycles.foldl processOneCycle g) v = edgesOf g0 v
  | [], g, hp, he, _ => ⟨hp u, he⟩
  | c :: rest, g, hp, he, hall => by
      rw [List.foldl_cons]
      refine foldCycles_inv g0 v u rest (processOneCycle g c) ?_ ?_
        (fun c' hc' => hall c' (List.mem_cons_of_mem _ hc'))
      · intro w
        unfold processOneCycle
        rw [foldTokens_pairs c w (tokensOnCycle g c) g]
        exact hp w
      · unfold processOneCycle
        rw [foldTokens_edges c v (hall c (List.mem_cons_self _ _))
          (tokensOnCycle g c) g]
        exact he

/-- The SCC fold keeps the `(dst, token)` shape of every vertex and, when
every cycle discovered for the initial graph avoids `v`, also `v`'s edge
list.  Cycle discovery inside the fold agrees with discovery on the initial
graph because the shape is preserved. -/
theorem foldSccs_inv (g0 : Graph) (v u : String) :
    ∀ (sl : List (List String)) (g : Graph),
      (∀ w, (edgesOf g w).map (fun e => (e.dst, e.token)) =
        (edgesOf g0 w).map (fun e => (e.dst, e.token))) →
      edgesOf g v = edgesOf g0 v →
      (∀ scc ∈ sl, ∀ c ∈ findCycles g0 scc maxCycleLength, v ∉ c) →
      (edgesOf (sl.foldl processOneScc g) u).map
          (fun e => (e.dst, e.token)) =
        (edgesOf g0 u).map (fun e => (e.dst, e.token)) ∧
      edgesOf (sl.foldl processOneScc g) v = edgesOf g0 v
  | [], g, hp, he, _ => ⟨hp u, he⟩
  | scc :: rest, g, hp, he, hall => by
      rw [List.foldl_cons]
      have hfc : findCycles g scc maxCycleLength =
          findCycles g0 scc maxCycleLength :=
        findCycles_congr g g0 scc maxCycleLength
          (fun w => succsOf_congr g g0 w (hp w))
      have hcyc : ∀ c ∈ findCycles g scc maxCycleLength, v ∉ c := by
        rw [hfc]
        exact hall scc (List.mem_cons_self _ _)
      have step1 : ∀ w, (edgesOf (processOneScc g scc) w).map
          (fun e => (e.dst, e.token)) =
          (edgesOf g0 w).map (fun e => (e.dst, e.token)) := by
        intro w
        unfold processOneScc
        exact (foldCycles_inv g0 v w (findCycles g scc maxCycleLength) g
          hp he hcyc).1
      have step2 : edgesOf (processOneScc g scc) v = edgesOf g0 v := by
        unfold processOneScc
        exact (foldCycles_inv g0 v u (findCycles g scc maxCycleLength) g
          hp he hcyc).2
      exact foldSccs_inv g0 v u rest (processOneScc g scc) step1 step2
        (fun scc' hscc' => hall scc' (List.mem_cons_of_mem _ hscc'))

/-- A successful association-list lookup produces a member entry. -/
theorem lookup_mem_graph :
    ∀ (g : Graph) (v : String) (es : List Edge),
      List.lookup v g = some es → (v, es) ∈ g
  | [], v, es, h => by simp [List.lookup] at h
  | (k, es') :: rest, v, es, h => by
      by_cases hv : v = k
      · subst hv
        simp only [List.lookup, beq_self_eq_true, Option.some.injEq] at h
        subst h
        exact List.mem_cons_self _ _
      · simp only [List.lookup, beq_eq_false_iff_ne.mpr hv] at h
        exact List.mem_cons_of_mem _ (lookup_mem_graph rest v es h)

/-- Every positive edge of the graph is extracted as an intent. -/
theorem mem_toIntents_of_edge (g : Graph) (v : String) (e : Edge)
    (he : e ∈ edgesOf g v) (hpos : 0 < e.amount) :
    (⟨v, e.dst, e.token, e.amount⟩ : Intent) ∈ toIntents g := by
  unfold edgesOf at he
  cases hl : List.lookup v g with
  | none => rw [hl] at he; simp at he
  | some es =>
      rw [hl] at he
      simp only [Option.getD_some] at he
      unfold toIntents
      refine List.mem_flatMap.mpr ⟨(v, es), lookup_mem_graph g v es hl, ?_⟩
      refine List.mem_map.mpr ⟨e, ?_, rfl⟩
      exact List.mem_filter.mpr ⟨he, by simpa using hpos⟩

/-- Claim C10 amended (the original claim is refuted by
`c10_counterexample`): a self-loop edge whose vertex appears in none of the
cycles enumerated for the SCCs of the built graph — in particular a vertex
in no multi-vertex SCC and no discovered cycle — survives the pipeline
untouched, and `ProcessNetting` emits it with its merged amount whenever
that amount is positive. -/
theorem c10_self_loop_outside_cycles (l : List Intent) (v : String)
    (sccs : List (List String))
    (hsccs : findSCCs (buildGraph l) = some sccs)
    (hout : ∀ scc ∈ sccs, ∀ c ∈ findCycles (buildGraph l) scc maxCycleLength,
      v ∉ c)
    (e : Edge) (he : e ∈ edgesOf (buildGraph l) v) (hdst : e.dst = v)
    (hpos : 0 < e.amount) :
    ∃ res, processNetting l = some res ∧
      (⟨v, v, e.token, e.amount⟩ : Intent) ∈ res := by
  have hinv := foldSccs_inv (buildGraph l) v v sccs (buildGraph l)
    (fun _ => rfl) rfl hout
  refine ⟨toIntents (sccs.foldl processOneScc (buildGraph l)), ?_, ?_⟩
  · simp only [processNetting, hsccs]
  · have he' : e ∈ edgesOf (sccs.foldl processOneScc (buildGraph l)) v := by
      rw [hinv.2]
      exact he
    have hm := mem_toIntents_of_edge _ v e he' hpos
    rw [hdst] at hm
    exact hm

/-- Witness for the amended C10 at the concrete input `exSelfLoopAlone`. -/
theorem c10_witness :
    (findSCCs (buildGraph exSelfLoopAlone) = some [] ∧
      (∀ scc ∈ ([] : List (List String)),
        ∀ c ∈ findCycles (buildGraph exSelfLoopAlone) scc maxCycleLength,
          "A" ∉ c) ∧
      (⟨"A", "T", 5⟩ : Edge) ∈ edgesOf (buildGraph exSelfLoopAlone) "A" ∧
      (⟨"A", "T", 5⟩ : Edge).dst = "A" ∧ 0 < (⟨"A", "T", 5⟩ : Edge).amount) ∧
    ∃ res, processNetting exSelfLoopAlone = some res ∧
      (⟨"A", "A", "T", 5⟩ : Intent) ∈ res :=
  ⟨⟨by decide, by decide, by decide, by decide, by decide⟩,
    c10_self_loop_outside_cycles exSelfLoopAlone "A" [] (by decide)
      (by decide) ⟨"A", "T", 5⟩ (by decide) (by decide) (by decide)⟩
